import Mathlib

/-
Shallow embedding of the analytics service (src/analytics/app.py) of the
MLA-app-group3 repository: activity records stored in the exercises
collection, the Mongo aggregation pipelines behind the /stats endpoints,
the 7-day daily-trend gap filler, the explicit date-range listing with
lazy created_at backfill, comment updates, and activity creation.

Modelling conventions:
- instants are minutes since the Unix epoch (Nat); a calendar day is the
  epoch-day number, so the instant t falls on day t / 1440 and midnight of
  day d is d * 1440;
- a stored document of the exercises collection is an ActivityDoc; the
  ObjectId is a Nat (oid), whose embedded creation instant is exposed by
  generationTime;
- Mongo group stages are modelled by key-indexed folds (insertAdd /
  insertPush) that keep keys in first-arrival order and reduce duration
  by sum, as the two-stage pipelines of /stats and /stats/<username> do;
- Python dict lookups (date_data in daily_trend_stats) are modelled by
  totalOf / hasKey / bucketOf.
-/

/-- A document of the db.exercises collection, as written by
create_activity: username, exerciseType, description, duration (an int),
date (an instant at midnight UTC) and an optional created_at instant
(absent on old records, backfilled on read). -/
structure ActivityDoc where
  oid : Nat
  username : String
  exerciseType : String
  description : String
  duration : Int
  date : Nat
  created_at : Option Nat
deriving DecidableEq, Repr

/-- Add value v into the bucket of key k, creating the bucket at the end
when the key is new: the accumulator step of a sum-reducing group stage. -/
def insertAdd {κ : Type} [DecidableEq κ] (k : κ) (v : Int) : List (κ × Int) → List (κ × Int)
  | [] => [(k, v)]
  | p :: rest => if p.1 = k then (p.1, p.2 + v) :: rest else p :: insertAdd k v rest

/-- Group the list by key and reduce the value by sum, keys in
first-arrival order: the model of a Mongo group stage with a sum
accumulator, such as totalDuration sum of duration. -/
def sumByKey {α κ : Type} [DecidableEq κ] (key : α → κ) (val : α → Int) (xs : List α) : List (κ × Int) :=
  xs.foldl (fun acc x => insertAdd (key x) (val x) acc) []

/-- Append value v to the bucket of key k, creating the bucket at the end
when the key is new: the accumulator step of a push-collecting group stage. -/
def insertPush {κ β : Type} [DecidableEq κ] (k : κ) (v : β) : List (κ × List β) → List (κ × List β)
  | [] => [(k, [v])]
  | p :: rest => if p.1 = k then (p.1, p.2 ++ [v]) :: rest else p :: insertPush k v rest

/-- Group the list by key and collect the values in arrival order: the
model of the second group stage of the /stats pipelines, which pushes
the per-exercise rows under their username. -/
def pushByKey {α κ β : Type} [DecidableEq κ] (key : α → κ) (val : α → β) (xs : List α) : List (κ × List β) :=
  xs.foldl (fun acc x => insertPush (key x) (val x) acc) []

/-- Total stored under key k, 0 when the key is absent (dict lookup with
default). -/
def totalOf {κ : Type} [DecidableEq κ] (k : κ) : List (κ × Int) → Int
  | [] => 0
  | p :: rest => if p.1 = k then p.2 else totalOf k rest

/-- Membership test of a key in a keyed list (the date_str in date_data
test of daily_trend_stats). -/
def hasKey {κ β : Type} [DecidableEq κ] (k : κ) : List (κ × β) → Bool
  | [] => false
  | p :: rest => if p.1 = k then true else hasKey k rest

/-- Bucket stored under key k, empty when the key is absent. -/
def bucketOf {κ β : Type} [DecidableEq κ] (k : κ) : List (κ × List β) → List β
  | [] => []
  | p :: rest => if p.1 = k then p.2 else bucketOf k rest

theorem insertAdd_snd_sum {κ : Type} [DecidableEq κ] (k : κ) (v : Int) (l : List (κ × Int)) :
    ((insertAdd k v l).map Prod.snd).sum = (l.map Prod.snd).sum + v := by
  induction l with
  | nil => simp [insertAdd]
  | cons p rest ih =>
    by_cases h : p.1 = k
    · simp only [insertAdd, if_pos h, List.map_cons, List.sum_cons]
      ring
    · simp only [insertAdd, if_neg h, List.map_cons, List.sum_cons, ih]
      ring

theorem sumByKey_go_snd_sum {α κ : Type} [DecidableEq κ] (key : α → κ) (val : α → Int) :
    ∀ (xs : List α) (acc : List (κ × Int)),
      (((xs.foldl (fun acc x => insertAdd (key x) (val x) acc) acc)).map Prod.snd).sum
        = (acc.map Prod.snd).sum + (xs.map val).sum := by
  intro xs
  induction xs with
  | nil => intro acc; simp
  | cons x xs ih =>
    intro acc
    simp only [List.foldl_cons, List.map_cons, List.sum_cons, ih, insertAdd_snd_sum]
    ring

/-- The grand total of a sum-reducing group stage equals the sum of the
measure over the input. -/
theorem sumByKey_snd_sum {α κ : Type} [DecidableEq κ] (key : α → κ) (val : α → Int)
    (xs : List α) :
    ((sumByKey key val xs).map Prod.snd).sum = (xs.map val).sum := by
  simpa using sumByKey_go_snd_sum key val xs []

theorem insertAdd_filter_snd_sum {κ : Type} [DecidableEq κ] (P : κ → Bool) (k : κ) (v : Int)
    (l : List (κ × Int)) :
    (((insertAdd k v l).filter (fun p => P p.1)).map Prod.snd).sum
      = ((l.filter (fun p => P p.1)).map Prod.snd).sum + (if P k then v else 0) := by
  induction l with
  | nil =>
    by_cases h : P k <;> simp [insertAdd, h]
  | cons p rest ih =>
    by_cases h : p.1 = k
    · subst h
      by_cases hP : P p.1 <;> simp [insertAdd, List.filter_cons, hP] <;> ring
    · by_cases hP : P p.1 <;>
        simp only [insertAdd, if_neg h, List.filter_cons, hP, if_pos, if_neg,
          List.map_cons, List.sum_cons, ih, Bool.false_eq_true, ite_false, ite_true] <;>
        ring

theorem sumByKey_go_filter_snd_sum {α κ : Type} [DecidableEq κ] (P : κ → Bool)
    (key : α → κ) (val : α → Int) :
    ∀ (xs : List α) (acc : List (κ × Int)),
      (((xs.foldl (fun acc x => insertAdd (key x) (val x) acc) acc)).filter
          (fun p => P p.1) |>.map Prod.snd).sum
        = ((acc.filter (fun p => P p.1)).map Prod.snd).sum
            + ((xs.filter (fun x => P (key x))).map val).sum := by
  intro xs
  induction xs with
  | nil => intro acc; simp
  | cons x xs ih =>
    intro acc
    by_cases h : P (key x) <;>
      simp only [List.foldl_cons, List.filter_cons, h, if_pos, if_neg, ite_true, ite_false,
        Bool.false_eq_true, List.map_cons, List.sum_cons, ih, insertAdd_filter_snd_sum] <;>
      ring

/-- Restricting a sum-reducing group stage to the keys satisfying P gives
the sum of the measure over the inputs whose key satisfies P. -/
theorem sumByKey_filter_snd_sum {α κ : Type} [DecidableEq κ] (P : κ → Bool)
    (key : α → κ) (val : α → Int) (xs : List α) :
    (((sumByKey key val xs).filter (fun p => P p.1)).map Prod.snd).sum
      = ((xs.filter (fun x => P (key x))).map val).sum := by
  simpa using sumByKey_go_filter_snd_sum P key val xs []

theorem totalOf_insertAdd {κ : Type} [DecidableEq κ] (k k' : κ) (v : Int) (l : List (κ × Int)) :
    totalOf k (insertAdd k' v l) = totalOf k l + (if k = k' then v else 0) := by
  induction l with
  | nil =>
    by_cases h : k = k' <;> simp [insertAdd, totalOf, h, eq_comm]
  | cons p rest ih =>
    obtain ⟨a, b⟩ := p
    by_cases hp : a = k'
    · subst hp
      simp only [insertAdd, if_pos rfl, totalOf]
      by_cases hk : a = k
      · subst hk; simp
      · have hk2 : ¬ k = a := fun h => hk h.symm
        simp [hk, hk2]
    · simp only [insertAdd, if_neg hp, totalOf]
      by_cases hk : a = k
      · subst hk
        have hk2 : ¬ a = k' := hp
        simp [hk2, fun h => hk2 h]
      · simp [hk, ih]

theorem hasKey_insertAdd {κ : Type} [DecidableEq κ] (k k' : κ) (v : Int) (l : List (κ × Int)) :
    hasKey k (insertAdd k' v l) = (decide (k = k') || hasKey k l) := by
  induction l with
  | nil =>
    by_cases h : k = k' <;> simp [insertAdd, hasKey, h, eq_comm]
  | cons p rest ih =>
    obtain ⟨a, b⟩ := p
    by_cases hp : a = k'
    · subst hp
      simp only [insertAdd, if_pos rfl, hasKey]
      by_cases hk : a = k
      · subst hk; simp
      · have hk2 : ¬ k = a := fun h => hk h.symm
        simp [hk, hk2]
    · simp only [insertAdd, if_neg hp, hasKey]
      by_cases hk : a = k
      · simp [hk]
      · simp [hk, ih]

theorem totalOf_sumByKey_go {α κ : Type} [DecidableEq κ] (key : α → κ) (val : α → Int) (k : κ) :
    ∀ (xs : List α) (acc : List (κ × Int)),
      totalOf k (xs.foldl (fun acc x => insertAdd (key x) (val x) acc) acc)
        = totalOf k acc + ((xs.filter (fun x => key x == k)).map val).sum := by
  intro xs
  induction xs with
  | nil => intro acc; simp
  | cons x xs ih =>
    intro acc
    rw [List.foldl_cons, ih, totalOf_insertAdd]
    by_cases h : key x = k
    · have h2 : k = key x := h.symm
      simp only [List.filter_cons, h, if_pos, decide_eq_true_eq, beq_iff_eq, ite_true,
        List.map_cons, List.sum_cons, if_pos h2]
      ring
    · have h2 : ¬ k = key x := fun hh => h hh.symm
      simp [List.filter_cons, h, h2]

/-- The total a sum-reducing group stage stores under key k is the sum of
the measure over the inputs with key k (0 when there are none). -/
theorem totalOf_sumByKey {α κ : Type} [DecidableEq κ] (key : α → κ) (val : α → Int)
    (k : κ) (xs : List α) :
    totalOf k (sumByKey key val xs) = ((xs.filter (fun x => key x == k)).map val).sum := by
  simpa [totalOf] using totalOf_sumByKey_go key val k xs []

theorem hasKey_sumByKey_go {α κ : Type} [DecidableEq κ] (key : α → κ) (val : α → Int) (k : κ) :
    ∀ (xs : List α) (acc : List (κ × Int)),
      hasKey k (xs.foldl (fun acc x => insertAdd (key x) (val x) acc) acc)
        = (hasKey k acc || xs.any (fun x => key x == k)) := by
  intro xs
  induction xs with
  | nil => intro acc; simp
  | cons x xs ih =>
    intro acc
    rw [List.foldl_cons, ih, hasKey_insertAdd]
    by_cases h : key x = k
    · have hb : (key x == k) = true := by simp [h]
      have hd : decide (k = key x) = true := by simp [h.symm]
      simp [List.any_cons, hb, hd]
    · have hb : (key x == k) = false := by simp [h]
      have hd : decide (k = key x) = false := by
        simp
        exact fun hh => h hh.symm
      simp [List.any_cons, hb, hd]

/-- A key appears in the output of a sum-reducing group stage exactly when
some input carries it. -/
theorem hasKey_sumByKey {α κ : Type} [DecidableEq κ] (key : α → κ) (val : α → Int)
    (k : κ) (xs : List α) :
    hasKey k (sumByKey key val xs) = xs.any (fun x => key x == k) := by
  simpa [hasKey] using hasKey_sumByKey_go key val k xs []

theorem fst_insertAdd {κ : Type} [DecidableEq κ] (k : κ) (v : Int) (l : List (κ × Int)) :
    (insertAdd k v l).map Prod.fst
      = if k ∈ l.map Prod.fst then l.map Prod.fst else l.map Prod.fst ++ [k] := by
  induction l with
  | nil => simp [insertAdd]
  | cons p rest ih =>
    obtain ⟨a, b⟩ := p
    by_cases hp : a = k
    · subst hp
      simp [insertAdd]
    · have hne : ¬ k = a := fun h => hp h.symm
      by_cases hmem : k ∈ rest.map Prod.fst <;>
        simp [insertAdd, hp, hne, hmem, ih]

theorem fst_insertPush {κ β : Type} [DecidableEq κ] (k : κ) (v : β) (l : List (κ × List β)) :
    (insertPush k v l).map Prod.fst
      = if k ∈ l.map Prod.fst then l.map Prod.fst else l.map Prod.fst ++ [k] := by
  induction l with
  | nil => simp [insertPush]
  | cons p rest ih =>
    obtain ⟨a, b⟩ := p
    by_cases hp : a = k
    · subst hp
      simp [insertPush]
    · have hne : ¬ k = a := fun h => hp h.symm
      by_cases hmem : k ∈ rest.map Prod.fst <;>
        simp [insertPush, hp, hne, hmem, ih]

theorem nodup_fst_insertPush {κ β : Type} [DecidableEq κ] (k : κ) (v : β)
    (l : List (κ × List β)) (h : (l.map Prod.fst).Nodup) :
    ((insertPush k v l).map Prod.fst).Nodup := by
  rw [fst_insertPush]
  by_cases hmem : k ∈ l.map Prod.fst
  · simpa [hmem] using h
  · simp only [hmem, if_neg, ite_false, Bool.false_eq_true]
    exact List.Nodup.append h (List.nodup_singleton k) (by simpa using hmem)

theorem nodup_fst_pushByKey_go {α κ β : Type} [DecidableEq κ] (key : α → κ) (val : α → β) :
    ∀ (xs : List α) (acc : List (κ × List β)), (acc.map Prod.fst).Nodup →
      (((xs.foldl (fun acc x => insertPush (key x) (val x) acc) acc)).map Prod.fst).Nodup := by
  intro xs
  induction xs with
  | nil => intro acc h; simpa using h
  | cons x xs ih =>
    intro acc h
    exact ih _ (nodup_fst_insertPush _ _ _ h)

/-- Keys of the push-collecting group stage are pairwise distinct. -/
theorem nodup_fst_pushByKey {α κ β : Type} [DecidableEq κ] (key : α → κ) (val : α → β)
    (xs : List α) : ((pushByKey key val xs).map Prod.fst).Nodup := by
  exact nodup_fst_pushByKey_go key val xs [] (by simp)

theorem bucketOf_insertPush {κ β : Type} [DecidableEq κ] (k k' : κ) (v : β)
    (l : List (κ × List β)) :
    bucketOf k (insertPush k' v l) = bucketOf k l ++ (if k = k' then [v] else []) := by
  induction l with
  | nil =>
    by_cases h : k = k' <;> simp [insertPush, bucketOf, h, eq_comm]
  | cons p rest ih =>
    obtain ⟨a, b⟩ := p
    by_cases hp : a = k'
    · subst hp
      simp only [insertPush, if_pos rfl, bucketOf]
      by_cases hk : a = k
      · subst hk; simp
      · have hk2 : ¬ k = a := fun h => hk h.symm
        simp [hk, hk2]
    · simp only [insertPush, if_neg hp, bucketOf]
      by_cases hk : a = k
      · subst hk
        have hk2 : ¬ a = k' := hp
        simp [hk2]
      · simp [hk, ih]

theorem bucketOf_pushByKey_go {α κ β : Type} [DecidableEq κ] (key : α → κ) (val : α → β) (k : κ) :
    ∀ (xs : List α) (acc : List (κ × List β)),
      bucketOf k (xs.foldl (fun acc x => insertPush (key x) (val x) acc) acc)
        = bucketOf k acc ++ (xs.filter (fun x => key x == k)).map val := by
  intro xs
  induction xs with
  | nil => intro acc; simp
  | cons x xs ih =>
    intro acc
    rw [List.foldl_cons, ih, bucketOf_insertPush]
    by_cases h : key x = k
    · have hb : (key x == k) = true := by simp [h]
      have h2 : k = key x := h.symm
      simp [List.filter_cons, hb, h2]
    · have hb : (key x == k) = false := by simp [h]
      have h2 : ¬ k = key x := fun hh => h hh.symm
      simp [List.filter_cons, hb, h2]

/-- The bucket a push-collecting group stage stores under key k collects,
in arrival order, the values of the inputs with key k. -/
theorem bucketOf_pushByKey {α κ β : Type} [DecidableEq κ] (key : α → κ) (val : α → β)
    (k : κ) (xs : List α) :
    bucketOf k (pushByKey key val xs) = (xs.filter (fun x => key x == k)).map val := by
  simpa [bucketOf] using bucketOf_pushByKey_go key val k xs []

/-- In a keyed list with pairwise distinct keys, a member pair is exactly
what lookup at its key returns. -/
theorem mem_eq_bucketOf {κ β : Type} [DecidableEq κ] (l : List (κ × List β))
    (hnd : (l.map Prod.fst).Nodup) (k : κ) (vs : List β) (h : (k, vs) ∈ l) :
    vs = bucketOf k l := by
  induction l with
  | nil => simp at h
  | cons p rest ih =>
    obtain ⟨a, b⟩ := p
    rcases List.mem_cons.mp h with heq | hmem
    · obtain ⟨rfl, rfl⟩ := Prod.mk.injEq .. ▸ And.intro (congrArg Prod.fst heq) (congrArg Prod.snd heq)
      simp [bucketOf]
    · have hk : ¬ a = k := by
        intro hak
        subst hak
        have : a ∈ rest.map Prod.fst := List.mem_map.mpr ⟨(a, vs), hmem, rfl⟩
        simp only [List.map_cons, List.nodup_cons] at hnd
        exact hnd.1 this
      simp only [bucketOf, if_neg hk]
      exact ih (by simpa using (List.map_cons Prod.fst (a,b) rest ▸ hnd).tail) hmem

/-- Weekday name of a Mongo dayOfWeek index (1 = Sunday through
7 = Saturday): the switch table in the projection stage of
daily_trend_stats, branch by branch. -/
def mongoDayName (i : Nat) : String :=
  if i = 2 then "Mon"
  else if i = 3 then "Tue"
  else if i = 4 then "Wed"
  else if i = 5 then "Thu"
  else if i = 6 then "Fri"
  else if i = 7 then "Sat"
  else if i = 1 then "Sun"
  else "Unknown"

/-- Mongo dayOfWeek of an epoch day: the store numbers weekdays
1 = Sunday through 7 = Saturday; epoch day 0 (1970-01-01) is a Thursday,
so it carries index 5. -/
def mongoDayOfWeek (d : Nat) : Nat := (d + 4) % 7 + 1

/-- Three-letter weekday name of an epoch day as Python strftime renders
it with the percent-a directive in the C locale; epoch day 0 is Thu. -/
def pyDayName (d : Nat) : String :=
  match (d + 3) % 7 with
  | 0 => "Mon"
  | 1 => "Tue"
  | 2 => "Wed"
  | 3 => "Thu"
  | 4 => "Fri"
  | 5 => "Sat"
  | _ => "Sun"

/-- The Mongo switch table agrees with the calendar weekday name on every
day: shared helper behind the daily-trend claims. -/
theorem mongoDayName_eq_pyDayName (d : Nat) :
    mongoDayName (mongoDayOfWeek d) = pyDayName d := by
  unfold mongoDayName mongoDayOfWeek pyDayName
  have h4 : (d + 4) % 7 = (d % 7 + 4) % 7 := by omega
  have h3 : (d + 3) % 7 = (d % 7 + 3) % 7 := by omega
  rw [h4, h3]
  have h7 : d % 7 < 7 := by omega
  set r := d % 7 with hr
  interval_cases r <;> rfl

/-- One element of the trend list the daily_trend_stats route returns:
the weekday label, the Duration measure (named for Recharts in the
projection stage) and the calendar day. -/
structure TrendEntry where
  name : String
  Duration : Int
  date : Nat
deriving DecidableEq, Repr

/-- Body of the gap-filling while loop of daily_trend_stats: the entry
appended for one calendar day, either the aggregated row found in the
date_data dict or a synthesized zero row labeled with the strftime
weekday name. -/
def fillEntry (dateData : Nat → Option TrendEntry) (d : Nat) : TrendEntry :=
  match dateData d with
  | some e => e
  | none => { name := pyDayName d, Duration := 0, date := d }

/-- The gap-filling while loop of daily_trend_stats: walk one day
(1440 minutes) at a time from the current instant while it does not
exceed the reference instant endT, emitting one entry per day. -/
def fillRange (dateData : Nat → Option TrendEntry) (endT : Nat) (current : Nat) : List TrendEntry :=
  if h : current ≤ endT then
    fillEntry dateData (current / 1440) :: fillRange dateData endT (current + 1440)
  else []
termination_by endT + 1 - current
decreasing_by omega

/-- The aggregation rows daily_trend_stats receives from Mongo for one
username and reference instant now, keyed by calendar day: match on the
username and the trailing 7-day window (gte the midnight six days back,
lte now), group by the date string (one group per calendar day) summing
duration. The sort stage only orders these rows; the route then
re-indexes them by date in a dict, so row order is immaterial. -/
def daily_trend_rows (docs : List ActivityDoc) (username : String) (now : Nat) :
    List (Nat × Int) :=
  sumByKey (fun r => r.date / 1440) (fun r => r.duration)
    (docs.filter (fun r => r.username == username
      && ((now / 1440 - 6) * 1440 ≤ r.date && r.date ≤ now)))

/-- Lookup of one calendar day in the date_data dict of
daily_trend_stats: when the day has an aggregated row, the projected
entry carries the switch-table weekday name of the Mongo dayOfWeek, the
summed Duration, and the date. -/
def trendRow (rows : List (Nat × Int)) (d : Nat) : Option TrendEntry :=
  if hasKey d rows then
    some { name := mongoDayName (mongoDayOfWeek d),
           Duration := totalOf d rows,
           date := d }
  else none

/-- The trend list the daily_trend_stats route returns: gap-fill the
aggregated rows over the seven calendar days from six days before the
reference day through the reference day. -/
def daily_trend_stats (docs : List ActivityDoc) (username : String) (now : Nat) :
    List TrendEntry :=
  fillRange (trendRow (daily_trend_rows docs username now)) now ((now / 1440 - 6) * 1440)

theorem fillRange_eq_range_map (dateData : Nat → Option TrendEntry) (endT : Nat) :
    ∀ (n d : Nat), endT / 1440 + 1 - d = n →
      fillRange dateData endT (d * 1440)
        = (List.range n).map (fun k => fillEntry dateData (d + k)) := by
  intro n
  induction n with
  | zero =>
    intro d h
    have hgt : ¬ d * 1440 ≤ endT := by omega
    rw [fillRange]
    simp [hgt]
  | succ n ih =>
    intro d h
    have hle : d * 1440 ≤ endT := by omega
    have hdiv : d * 1440 / 1440 = d := by omega
    have hnext : d * 1440 + 1440 = (d + 1) * 1440 := by ring
    rw [fillRange, dif_pos hle, hdiv, hnext, ih (d + 1) (by omega)]
    rw [List.range_succ_eq_map, List.map_cons, List.map_map]
    have hfun : ((fun k => fillEntry dateData (d + k)) ∘ Nat.succ)
        = fun k => fillEntry dateData (d + 1 + k) := by
      funext k
      simp only [Function.comp]
      congr 1
      omega
    rw [hfun]
    simp

theorem totalOf_eq_zero_of_hasKey_false {κ : Type} [DecidableEq κ] (k : κ)
    (l : List (κ × Int)) (h : hasKey k l = false) : totalOf k l = 0 := by
  induction l with
  | nil => rfl
  | cons p rest ih =>
    by_cases hp : p.1 = k
    · simp [hasKey, hp] at h
    · simp only [hasKey, if_neg hp] at h
      simp only [totalOf, if_neg hp]
      exact ih h

/-- One day of the gap-filled trend, uniformly: whether or not the day has
an aggregated row, the emitted entry carries the calendar weekday name,
the day total (0 when the day is absent from the rows) and the date. -/
theorem fillEntry_trendRow (rows : List (Nat × Int)) (d : Nat) :
    fillEntry (trendRow rows) d
      = { name := pyDayName d, Duration := totalOf d rows, date := d } := by
  unfold fillEntry trendRow
  by_cases h : hasKey d rows
  · simp [h, mongoDayName_eq_pyDayName]
  · simp [h, totalOf_eq_zero_of_hasKey_false d rows (by simpa using h)]

/-- C1: for every username, document collection and reference instant (any
instant from 1970-01-07 on, so the trailing window stays inside the
epoch), daily_trend_stats returns exactly 7 entries, one per calendar day
of the trailing 7-day window in chronologically ascending date order; the
entry of day d carries the weekday name of d as its name and, as its
Duration measure, the total duration of the user's matching records on
day d, which is 0 when no record matches. -/
theorem daily_trend_dense_week (docs : List ActivityDoc) (username : String) (now : Nat)
    (h : 6 ≤ now / 1440) :
    (daily_trend_stats docs username now).length = 7 ∧
    (∀ i j, i < j → j < 7 →
      ((daily_trend_stats docs username now).getD i ⟨"", 0, 0⟩).date
        < ((daily_trend_stats docs username now).getD j ⟨"", 0, 0⟩).date) ∧
    daily_trend_stats docs username now
      = (List.range 7).map (fun k =>
          { name := pyDayName (now / 1440 - 6 + k),
            Duration := ((docs.filter (fun r => (r.date / 1440 == now / 1440 - 6 + k)
                && (r.username == username
                  && ((now / 1440 - 6) * 1440 ≤ r.date && r.date ≤ now)))).map
              (fun r => r.duration)).sum,
            date := now / 1440 - 6 + k }) := by
  have hmain : daily_trend_stats docs username now
      = (List.range 7).map
          (fun k => fillEntry (trendRow (daily_trend_rows docs username now))
            (now / 1440 - 6 + k)) := by
    unfold daily_trend_stats
    exact fillRange_eq_range_map _ now 7 (now / 1440 - 6) (by omega)
  have hentry : ∀ k, fillEntry (trendRow (daily_trend_rows docs username now))
      (now / 1440 - 6 + k)
      = { name := pyDayName (now / 1440 - 6 + k),
          Duration := ((docs.filter (fun r => (r.date / 1440 == now / 1440 - 6 + k)
              && (r.username == username
                && ((now / 1440 - 6) * 1440 ≤ r.date && r.date ≤ now)))).map
            (fun r => r.duration)).sum,
          date := now / 1440 - 6 + k } := by
    intro k
    rw [fillEntry_trendRow]
    unfold daily_trend_rows
    rw [totalOf_sumByKey, List.filter_filter]
  refine ⟨by rw [hmain]; simp, ?_, by rw [hmain]; exact List.map_congr_left fun k _ => hentry k⟩
  intro i j hij hj
  rw [hmain]
  have hget : ∀ m, m < 7 →
      (((List.range 7).map
          (fun k => fillEntry (trendRow (daily_trend_rows docs username now))
            (now / 1440 - 6 + k))).getD m ⟨"", 0, 0⟩)
        = fillEntry (trendRow (daily_trend_rows docs username now)) (now / 1440 - 6 + m) := by
    intro m hm
    rw [List.getD_eq_getElem _ _ (by simpa using hm)]
    simp
  rw [hget i (by omega), hget j hj, hentry i, hentry j]
  simp
  omega

/-- Witness for C1: at the reference instant 600 minutes into epoch day
20000 the window hypothesis holds and the dense 7-day trend is as the
theorem states, here for an empty collection. -/
theorem daily_trend_dense_week_witness :
    6 ≤ 28800600 / 1440 ∧
    ((daily_trend_stats ([] : List ActivityDoc) "alice" 28800600).length = 7 ∧
      (∀ i j, i < j → j < 7 →
        ((daily_trend_stats ([] : List ActivityDoc) "alice" 28800600).getD i ⟨"", 0, 0⟩).date
          < ((daily_trend_stats ([] : List ActivityDoc) "alice" 28800600).getD j
              ⟨"", 0, 0⟩).date) ∧
      daily_trend_stats ([] : List ActivityDoc) "alice" 28800600
        = (List.range 7).map (fun k =>
            { name := pyDayName (28800600 / 1440 - 6 + k),
              Duration := ((([] : List ActivityDoc).filter
                  (fun r => (r.date / 1440 == 28800600 / 1440 - 6 + k)
                    && (r.username == "alice"
                      && ((28800600 / 1440 - 6) * 1440 ≤ r.date && r.date ≤ 28800600)))).map
                (fun r => r.duration)).sum,
              date := 28800600 / 1440 - 6 + k })) :=
  ⟨by decide, daily_trend_dense_week [] "alice" 28800600 (by decide)⟩

/-- C7: the switch table of daily_trend_stats, applied to the Mongo
dayOfWeek index (1 = Sunday) of any calendar day, yields the 3-letter
abbreviation of that day's actual weekday, and the table reads
2 Mon, 3 Tue, 4 Wed, 5 Thu, 6 Fri, 7 Sat, 1 Sun. -/
theorem mongo_switch_table_correct (d : Nat) :
    mongoDayName (mongoDayOfWeek d) = pyDayName d ∧
    (mongoDayName 2, mongoDayName 3, mongoDayName 4, mongoDayName 5, mongoDayName 6,
        mongoDayName 7, mongoDayName 1)
      = ("Mon", "Tue", "Wed", "Thu", "Fri", "Sat", "Sun") :=
  ⟨mongoDayName_eq_pyDayName d, by decide⟩

/-- First group stage of the /stats and /stats/<username> pipelines:
group on the pair of username and exerciseType and sum duration into
totalDuration. -/
def stats_stage1 (docs : List ActivityDoc) : List ((String × String) × Int) :=
  sumByKey (fun r => (r.username, r.exerciseType)) (fun r => r.duration) docs

/-- Second group stage plus projection of the /stats pipeline: regroup
the stage-one rows by username, pushing the pairs of exerciseType and
totalDuration in arrival order; a result row is a username with its
exercises list. -/
def stats_pipeline (docs : List ActivityDoc) : List (String × List (String × Int)) :=
  pushByKey (fun p => p.1.1) (fun p => (p.1.2, p.2)) (stats_stage1 docs)

/-- The /stats/<username> pipeline: the same two group stages, after a
match stage that keeps only the given user's documents. -/
def user_stats_pipeline (username : String) (docs : List ActivityDoc) :
    List (String × List (String × Int)) :=
  stats_pipeline (docs.filter (fun r => r.username == username))

theorem stats_pipeline_member_sum (ds : List ActivityDoc) (u : String)
    (exs : List (String × Int)) (hmem : (u, exs) ∈ stats_pipeline ds) :
    (exs.map Prod.snd).sum
      = ((ds.filter (fun r => r.username == u)).map (fun r => r.duration)).sum := by
  have hnd := nodup_fst_pushByKey (fun p : (String × String) × Int => p.1.1)
    (fun p => (p.1.2, p.2)) (stats_stage1 ds)
  have hexs := mem_eq_bucketOf _ hnd u exs hmem
  rw [hexs]
  rw [bucketOf_pushByKey, List.map_map]
  have hcomp : (Prod.snd ∘ fun p : (String × String) × Int => (p.1.2, p.2))
      = fun p : (String × String) × Int => p.2 := rfl
  rw [hcomp]
  unfold stats_stage1
  have hsum := sumByKey_filter_snd_sum (fun k : String × String => k.1 == u)
    (fun r : ActivityDoc => (r.username, r.exerciseType)) (fun r => r.duration) ds
  simpa using hsum

/-- C2: in the two-stage aggregation of /stats, and likewise in the
matched variant of /stats/<username>, the grand total of a user's
exercises list (the sum of its totalDuration values) equals the sum of
duration over all of that user's matching records; stated under the
non-negativity of durations as the spec phrases it, though the identity
needs no bound. -/
theorem stats_grand_total (docs : List ActivityDoc) (u : String) (exs : List (String × Int))
    (hpos : ∀ r ∈ docs, 0 ≤ r.duration) :
    ((u, exs) ∈ stats_pipeline docs →
      (exs.map Prod.snd).sum
        = ((docs.filter (fun r => r.username == u)).map (fun r => r.duration)).sum) ∧
    ((u, exs) ∈ user_stats_pipeline u docs →
      (exs.map Prod.snd).sum
        = ((docs.filter (fun r => r.username == u)).map (fun r => r.duration)).sum) := by
  constructor
  · exact fun hmem => stats_pipeline_member_sum docs u exs hmem
  · intro hmem
    have h2 := stats_pipeline_member_sum (docs.filter (fun r => r.username == u)) u exs hmem
    rwa [List.filter_filter,
      show (fun (r : ActivityDoc) => (r.username == u) && (r.username == u))
          = (fun r => r.username == u) from funext fun r => Bool.and_self _] at h2

/-- Witness for C2: a three-record collection with two users; the user
alice owns the first two records, her exercises list collects Run 30 and
Yoga 20, and the grand total 50 equals the sum of her durations. -/
theorem stats_grand_total_witness :
    (∀ r ∈ [ActivityDoc.mk 1 "alice" "Run" "" 30 0 none,
            ActivityDoc.mk 2 "alice" "Yoga" "" 20 0 none,
            ActivityDoc.mk 3 "bob" "Run" "" 10 0 none], 0 ≤ r.duration) ∧
    ("alice", [("Run", (30 : Int)), ("Yoga", 20)])
        ∈ stats_pipeline [ActivityDoc.mk 1 "alice" "Run" "" 30 0 none,
            ActivityDoc.mk 2 "alice" "Yoga" "" 20 0 none,
            ActivityDoc.mk 3 "bob" "Run" "" 10 0 none] ∧
    (([("Run", (30 : Int)), ("Yoga", 20)].map Prod.snd).sum
      = (([ActivityDoc.mk 1 "alice" "Run" "" 30 0 none,
            ActivityDoc.mk 2 "alice" "Yoga" "" 20 0 none,
            ActivityDoc.mk 3 "bob" "Run" "" 10 0 none].filter
          (fun r => r.username == "alice")).map (fun r => r.duration)).sum) :=
  ⟨by decide, by decide,
    (stats_grand_total _ "alice" _ (by decide)).1 (by decide)⟩

theorem hasKey_eq_true_iff {κ β : Type} [DecidableEq κ] (k : κ) (l : List (κ × β)) :
    hasKey k l = true ↔ k ∈ l.map Prod.fst := by
  induction l with
  | nil => simp [hasKey]
  | cons p rest ih =>
    by_cases hp : p.1 = k
    · simp [hasKey, hp]
    · have hp2 : ¬ k = p.1 := fun h => hp h.symm
      simp [hasKey, hp, hp2, ih]

theorem nodup_fst_insertAdd {κ : Type} [DecidableEq κ] (k : κ) (v : Int)
    (l : List (κ × Int)) (h : (l.map Prod.fst).Nodup) :
    ((insertAdd k v l).map Prod.fst).Nodup := by
  rw [fst_insertAdd]
  by_cases hmem : k ∈ l.map Prod.fst
  · simpa [hmem] using h
  · simp only [hmem, if_neg, ite_false, Bool.false_eq_true]
    exact List.Nodup.append h (List.nodup_singleton k) (by simpa using hmem)

theorem nodup_fst_sumByKey_go {α κ : Type} [DecidableEq κ] (key : α → κ) (val : α → Int) :
    ∀ (xs : List α) (acc : List (κ × Int)), (acc.map Prod.fst).Nodup →
      (((xs.foldl (fun acc x => insertAdd (key x) (val x) acc) acc)).map Prod.fst).Nodup := by
  intro xs
  induction xs with
  | nil => intro acc h; simpa using h
  | cons x xs ih =>
    intro acc h
    exact ih _ (nodup_fst_insertAdd _ _ _ h)

/-- Keys of the sum-reducing group stage are pairwise distinct. -/
theorem nodup_fst_sumByKey {α κ : Type} [DecidableEq κ] (key : α → κ) (val : α → Int)
    (xs : List α) : ((sumByKey key val xs).map Prod.fst).Nodup :=
  nodup_fst_sumByKey_go key val xs [] (by simp)

/-- A sum-reducing group stage has one row per distinct key of the input:
its length is the number of distinct keys. -/
theorem sumByKey_length_eq_card {α κ : Type} [DecidableEq κ] (key : α → κ) (val : α → Int)
    (xs : List α) :
    (sumByKey key val xs).length = ((xs.map key).toFinset).card := by
  have hnd := nodup_fst_sumByKey key val xs
  have hlen : (sumByKey key val xs).length
      = ((sumByKey key val xs).map Prod.fst).length := (List.length_map _ _).symm
  rw [hlen, ← List.toFinset_card_of_nodup hnd]
  congr 1
  ext k
  simp only [List.mem_toFinset]
  rw [← hasKey_eq_true_iff k (sumByKey key val xs), hasKey_sumByKey]
  simp [List.any_eq_true, List.mem_map, beq_iff_eq]

/-- Start of the current week as get_start_of_week computes it: midnight
of the reference day minus its Python weekday (0 = Monday); epoch day 0,
1970-01-01, is a Thursday, weekday 3. -/
def get_start_of_week (now : Nat) : Nat :=
  (now / 1440 - (now / 1440 + 3) % 7) * 1440

/-- The reply shape of weekly_summary_stats. -/
structure WeeklySummary where
  totalDuration : Int
  totalTypes : Nat
  exercises : List (String × Int)
deriving DecidableEq, Repr

/-- The weekly_summary_stats route, kept in the source as a disabled
triple-quoted block and modelled from that text: match the user's
documents from the start of the current week (gte) up to the reference
instant (lt), group by exerciseType summing duration into totalDuration,
then reply with the sum of the aggregated totals, their count, and the
aggregated list itself. -/
def weekly_summary_stats (docs : List ActivityDoc) (username : String) (now : Nat) :
    WeeklySummary :=
  let weekly_exercises := sumByKey (fun r => r.exerciseType) (fun r => r.duration)
    (docs.filter (fun r => r.username == username
      && (get_start_of_week now ≤ r.date && r.date < now)))
  { totalDuration := (weekly_exercises.map Prod.snd).sum,
    totalTypes := weekly_exercises.length,
    exercises := weekly_exercises }

/-- C4: every weekly summary reports as totalDuration exactly the sum of
the totalDuration values of its own exercises list, and as totalTypes the
number of distinct exercise types having at least one matching record in
the current-week window. -/
theorem weekly_summary_totals (docs : List ActivityDoc) (username : String) (now : Nat) :
    (weekly_summary_stats docs username now).totalDuration
      = (((weekly_summary_stats docs username now).exercises).map Prod.snd).sum ∧
    (weekly_summary_stats docs username now).totalTypes
      = (((docs.filter (fun r => r.username == username
            && (get_start_of_week now ≤ r.date && r.date < now))).map
          (fun r => r.exerciseType)).toFinset).card := by
  constructor
  · rfl
  · exact sumByKey_length_eq_card _ _ _

/-- A calendar date as the YYYY-MM-DD query parameters parse: what
datetime.strptime yields for the start and end strings of
weekly_journal_stats and get_activities_by_range. -/
structure YMD where
  year : Nat
  month : Nat
  day : Nat
deriving DecidableEq, Repr

/-- Epoch day number of a calendar date (days since 1970-01-01), by the
standard civil-calendar computation: shift the year so it starts in
March, count the days of the 400-year era, and subtract the epoch offset
719468; division on Int here is floor division. -/
def toEpochDay (d : YMD) : Int :=
  let y : Int := (d.year : Int) - (if d.month ≤ 2 then 1 else 0)
  let m : Int := (d.month : Int)
  let era : Int := y / 400
  let yoe : Int := y - era * 400
  let doy : Int := (153 * (m + (if 2 < d.month then -3 else 9)) + 2) / 5 + (d.day : Int) - 1
  let doe : Int := yoe * 365 + yoe / 4 - yoe / 100 + doy
  era * 146097 + doe - 719468

/-- The match predicate of get_activities_by_range (and, with the same
plus-one-day arithmetic on naive datetimes, of weekly_journal_stats): the
start instant is midnight of the parsed start date, the end instant is
midnight of the parsed end date plus one day, and a document matches when
its username matches and start lte date lt end. -/
def matches_range (username : String) (startD endD : YMD) (r : ActivityDoc) : Bool :=
  r.username == username
    && (decide (toEpochDay startD * 1440 ≤ (r.date : Int))
      && decide ((r.date : Int) < (toEpochDay endD + 1) * 1440))

/-- C3: the explicit date range is end-inclusive at day granularity. The
resolved window of any pair of parsed dates spans from midnight of the
start date up to but excluding midnight of the day after the end date
(first conjunct, with the day after 2025-01-01 being 2025-01-02 grounded
in the second); for the single-day range 2025-01-01 to 2025-01-01, a
record dated exactly that day matches and a record dated the next day
does not. -/
theorem explicit_range_end_inclusive :
    (∀ (u : String) (s e : YMD) (r : ActivityDoc),
      matches_range u s e r
        = (r.username == u
          && (decide (toEpochDay s * 1440 ≤ (r.date : Int))
            && decide ((r.date : Int) < (toEpochDay e + 1) * 1440)))) ∧
    toEpochDay ⟨2025, 1, 2⟩ = toEpochDay ⟨2025, 1, 1⟩ + 1 ∧
    matches_range "alice" ⟨2025, 1, 1⟩ ⟨2025, 1, 1⟩
      (ActivityDoc.mk 7 "alice" "Run" "" 30 ((toEpochDay ⟨2025, 1, 1⟩).toNat * 1440)
        (some 0)) = true ∧
    matches_range "alice" ⟨2025, 1, 1⟩ ⟨2025, 1, 1⟩
      (ActivityDoc.mk 8 "alice" "Run" "" 30 ((toEpochDay ⟨2025, 1, 2⟩).toNat * 1440)
        (some 0)) = false :=
  ⟨fun _ _ _ _ => rfl, by decide, by decide, by decide⟩

/-- Creation instant embedded in an ObjectId: the top four of its twelve
bytes are a big-endian creation timestamp, so dropping the low eight
bytes recovers the generation_time, a deterministic pure function of the
identifier. -/
def generationTime (oid : Nat) : Nat := oid / 2 ^ 64

/-- The lazy created_at backfill path of get_activities_by_range for one
stored document: when created_at is absent, derive it from the ObjectId
generation time and persist it with a conditional update; when present,
leave the document alone. Returns the created value used for rendering
together with the stored document after the read. -/
def backfill_created_at (a : ActivityDoc) : Nat × ActivityDoc :=
  match a.created_at with
  | some c => (c, a)
  | none =>
      let c := generationTime a.oid
      (c, { a with created_at := some c })

/-- C5: the backfill path is idempotent and convergent. Running it twice
leaves the store where one run put it; a document with no original
created_at ends, after one run and after two, with the value derived
deterministically from its identifier; a document whose created_at is set
is never changed. -/
theorem backfill_idempotent_convergent (a : ActivityDoc) :
    backfill_created_at (backfill_created_at a).2 = backfill_created_at a ∧
    (a.created_at = none →
      (backfill_created_at a).2.created_at = some (generationTime a.oid) ∧
      (backfill_created_at (backfill_created_at a).2).2.created_at
        = some (generationTime a.oid)) ∧
    (∀ c, a.created_at = some c → backfill_created_at a = (c, a)) := by
  cases h : a.created_at with
  | none => simp [backfill_created_at, h]
  | some c => simp [backfill_created_at, h]

/-- Witness for C5 at a document with no original created_at. -/
theorem backfill_idempotent_convergent_witness :
    (ActivityDoc.mk 42 "alice" "Run" "" 30 0 none).created_at = none ∧
    ((backfill_created_at (ActivityDoc.mk 42 "alice" "Run" "" 30 0 none)).2.created_at
        = some (generationTime 42) ∧
      (backfill_created_at
          (backfill_created_at (ActivityDoc.mk 42 "alice" "Run" "" 30 0 none)).2).2.created_at
        = some (generationTime 42)) :=
  ⟨rfl, (backfill_idempotent_convergent (ActivityDoc.mk 42 "alice" "Run" "" 30 0 none)).2.1 rfl⟩

/-- One output row of /api/activities/range: the identifier, user, the
calendar day of the stored date, the minutes-of-day of the created
instant (the H:M rendering), the activity fields and the created instant
itself. -/
structure RangeOut where
  id : Nat
  username : String
  date : Nat
  time : Nat
  activityType : String
  duration : Int
  comments : String
  createdAt : Nat
deriving DecidableEq, Repr

/-- Rendering of one matched document inside the response loop of
get_activities_by_range, with the persistence of a backfilled created_at
modelled by persistOk: when created_at is absent the handler derives it
from the ObjectId and issues the conditional update inside the same try
block as the loop, so a failing update raises out of the whole read. -/
def render_activity (persistOk : ActivityDoc → Bool) (a : ActivityDoc) :
    Except String RangeOut :=
  match a.created_at with
  | some c =>
      .ok ⟨a.oid, a.username, a.date / 1440, c % 1440, a.exerciseType, a.duration,
        a.description, c⟩
  | none =>
      let c := generationTime a.oid
      if persistOk a then
        .ok ⟨a.oid, a.username, a.date / 1440, c % 1440, a.exerciseType, a.duration,
          a.description, c⟩
      else .error "update failed"

/-- The response loop of get_activities_by_range over the already matched
documents: build the rows one by one; the first raised persistence
failure aborts the read (the newest-first sort of the cursor only
permutes which failure surfaces first and is not modelled). -/
def render_activities (persistOk : ActivityDoc → Bool) :
    List ActivityDoc → Except String (List RangeOut)
  | [] => .ok []
  | a :: rest =>
      match render_activity persistOk a with
      | .error e => .error e
      | .ok o =>
          match render_activities persistOk rest with
          | .error e => .error e
          | .ok os => .ok (o :: os)

/-- The /api/activities/range read: filter the store by user and window,
then render, backfilling created_at on the way. -/
def get_activities_by_range (persistOk : ActivityDoc → Bool) (docs : List ActivityDoc)
    (username : String) (startD endD : YMD) : Except String (List RangeOut) :=
  render_activities persistOk (docs.filter (matches_range username startD endD))

/-- Counterexample to C6: one matched record lacking created_at and a
persistence step that fails make the whole read return the internal
error; the derived value is not returned to the caller. -/
theorem backfill_failure_fails_read_counterexample :
    get_activities_by_range (fun _ => false)
      [ActivityDoc.mk 1 "alice" "Run" "" 30 (20089 * 1440) none]
      "alice" ⟨2025, 1, 1⟩ ⟨2025, 1, 1⟩ = .error "update failed" := by
  rfl

theorem render_activities_error_of_mem (persistOk : ActivityDoc → Bool) :
    ∀ (l : List ActivityDoc) (a : ActivityDoc), a ∈ l →
      render_activity persistOk a = .error "update failed" →
      ∃ e, render_activities persistOk l = Except.error e := by
  intro l
  induction l with
  | nil => intro a h; simp at h
  | cons x xs ih =>
    intro a hmem herr
    rcases List.mem_cons.mp hmem with rfl | hmem2
    · exact ⟨"update failed", by simp [render_activities, herr]⟩
    · cases hx : render_activity persistOk x with
      | error e => exact ⟨e, by simp [render_activities, hx]⟩
      | ok o =>
          obtain ⟨e, he⟩ := ih a hmem2 herr
          exact ⟨e, by simp [render_activities, hx, he]⟩

/-- C6 as the code actually behaves (amended): when the persistence of a
derived created_at fails for some matched record, the read fails as a
whole with an internal error instead of returning the derived value. -/
theorem backfill_failure_fails_read (persistOk : ActivityDoc → Bool)
    (docs : List ActivityDoc) (username : String) (startD endD : YMD) (a : ActivityDoc)
    (hmem : a ∈ docs) (hmatch : matches_range username startD endD a = true)
    (hmiss : a.created_at = none) (hfail : persistOk a = false) :
    ∃ e, get_activities_by_range persistOk docs username startD endD = Except.error e := by
  have hmem2 : a ∈ docs.filter (matches_range username startD endD) :=
    List.mem_filter.mpr ⟨hmem, hmatch⟩
  have herr : render_activity persistOk a = .error "update failed" := by
    simp [render_activity, hmiss, hfail]
  exact render_activities_error_of_mem persistOk _ a hmem2 herr

/-- Witness for the amended C6 at the counterexample input. -/
theorem backfill_failure_fails_read_witness :
    (ActivityDoc.mk 1 "alice" "Run" "" 30 (20089 * 1440) none)
        ∈ [ActivityDoc.mk 1 "alice" "Run" "" 30 (20089 * 1440) none] ∧
    matches_range "alice" ⟨2025, 1, 1⟩ ⟨2025, 1, 1⟩
      (ActivityDoc.mk 1 "alice" "Run" "" 30 (20089 * 1440) none) = true ∧
    (∃ e, get_activities_by_range (fun _ => false)
        [ActivityDoc.mk 1 "alice" "Run" "" 30 (20089 * 1440) none]
        "alice" ⟨2025, 1, 1⟩ ⟨2025, 1, 1⟩ = Except.error e) :=
  ⟨by decide, by decide,
    backfill_failure_fails_read (fun _ => false)
      [ActivityDoc.mk 1 "alice" "Run" "" 30 (20089 * 1440) none]
      "alice" ⟨2025, 1, 1⟩ ⟨2025, 1, 1⟩
      (ActivityDoc.mk 1 "alice" "Run" "" 30 (20089 * 1440) none)
      (by decide) (by decide) rfl rfl⟩

/-- Outcome of the PATCH comment handler: 400 when the body carries
neither comments nor description, 404 when no document matches the
identifier, ok otherwise. -/
inductive UpdateOutcome
  | validationError
  | notFound
  | ok
deriving DecidableEq, Repr

/-- Update the first element matching the predicate, as a single-document
update_one does. -/
def updateFirst {α : Type} (p : α → Bool) (f : α → α) : List α → List α
  | [] => []
  | x :: xs => if p x then f x :: xs else x :: updateFirst p f xs

/-- The update_activity_comment handler: take comments (or description)
from the body and reject when both are absent; otherwise update_one sets
description on the document whose identifier matches (the query ors the
ObjectId, raw-string and id-field spellings of one identifier, collapsed
here to the oid), and a matched_count of 0 becomes the 404 not-found
reply. Returns the outcome together with the store after the call. -/
def update_activity_comment (store : List ActivityDoc) (activity_id : Nat)
    (comments : Option String) : UpdateOutcome × List ActivityDoc :=
  match comments with
  | none => (.validationError, store)
  | some c =>
      let store2 := updateFirst (fun d => d.oid == activity_id)
        (fun d => { d with description := c }) store
      if store.any (fun d => d.oid == activity_id) then (.ok, store2)
      else (.notFound, store2)

theorem updateFirst_eq_self {α : Type} (p : α → Bool) (f : α → α) :
    ∀ (l : List α), (∀ x ∈ l, p x = false) → updateFirst p f l = l := by
  intro l
  induction l with
  | nil => intro h; rfl
  | cons x xs ih =>
    intro h
    simp only [updateFirst, h x (List.mem_cons_self x xs), Bool.false_eq_true, if_neg,
      ite_false, List.cons.injEq, true_and]
    exact ih (fun y hy => h y (List.mem_cons_of_mem x hy))

/-- C8: updating the comment of an identifier that matches no stored
document yields the not-found outcome, which is distinct from the
validation-error outcome, and leaves every document of the store
unchanged. -/
theorem update_comment_not_found (store : List ActivityDoc) (activity_id : Nat) (c : String)
    (h : ∀ d ∈ store, d.oid ≠ activity_id) :
    update_activity_comment store activity_id (some c) = (.notFound, store) ∧
    (UpdateOutcome.notFound ≠ UpdateOutcome.validationError) := by
  refine ⟨?_, by decide⟩
  have hfalse : ∀ d ∈ store, (d.oid == activity_id) = false := by
    intro d hd
    simpa using h d hd
  have hany : store.any (fun d => d.oid == activity_id) = false :=
    List.any_eq_false.mpr (by intro d hd; simp [hfalse d hd])
  simp only [update_activity_comment]
  rw [updateFirst_eq_self _ _ store hfalse, hany]
  simp

/-- Witness for C8: a one-document store and an identifier that matches
nothing. -/
theorem update_comment_not_found_witness :
    (∀ d ∈ [ActivityDoc.mk 1 "alice" "Run" "note" 30 0 none], d.oid ≠ 2) ∧
    (update_activity_comment [ActivityDoc.mk 1 "alice" "Run" "note" 30 0 none] 2
        (some "hi")
      = (.notFound, [ActivityDoc.mk 1 "alice" "Run" "note" 30 0 none]) ∧
    (UpdateOutcome.notFound ≠ UpdateOutcome.validationError)) :=
  ⟨by decide,
    update_comment_not_found [ActivityDoc.mk 1 "alice" "Run" "note" 30 0 none] 2 "hi"
      (by decide)⟩

/-- Python int() applied to a JSON number, as create_activity coerces the
duration field: integer division of numerator by denominator truncating
toward zero. -/
def int_of (q : Rat) : Int := q.num.tdiv (q.den : Int)

/-- The JSON body of POST /api/activities as create_activity reads it:
each field through body.get, the date already parsed to its calendar
date (an unparseable or absent date is date none, which the handler
rejects). -/
structure CreateBody where
  username : Option String
  exerciseType : Option String
  description : Option String
  duration : Option Rat
  date : Option YMD
deriving DecidableEq, Repr

/-- Python falsiness of an optional string as the all() guard of
create_activity sees it: absent or empty rejects the request. -/
def falsyStr : Option String → Bool
  | none => true
  | some s => s == ""

/-- The create_activity handler: reject when username, exerciseType or
date is missing or empty; otherwise normalise the parsed calendar date to
midnight UTC and insert the document with duration coerced by int(),
description defaulted to the empty string and created_at stamped with the
server instant now; the store assigns the identifier oid. -/
def create_activity (now oid : Nat) (body : CreateBody) : Except String ActivityDoc :=
  match body.date with
  | none => .error "username, exerciseType and date are required"
  | some d =>
      if falsyStr body.username || falsyStr body.exerciseType then
        .error "username, exerciseType and date are required"
      else
        Except.ok
          { oid := oid
            username := body.username.getD ""
            exerciseType := body.exerciseType.getD ""
            description := body.description.getD ""
            duration := int_of (body.duration.getD 0)
            date := (toEpochDay d).toNat * 1440
            created_at := some now }

theorem floor_eq_num_ediv_den (q : Rat) : ⌊q⌋ = q.num / (q.den : Int) := by
  conv_lhs => rw [← Rat.num_div_den q]
  exact_mod_cast Rat.floor_intCast_div_natCast q.num q.den

/-- The int() coercion truncates toward zero: floor on non-negative
values, ceiling on negative ones. -/
theorem int_of_eq_trunc (q : Rat) : int_of q = if 0 ≤ q then ⌊q⌋ else ⌈q⌉ := by
  by_cases h : 0 ≤ q
  · rw [if_pos h, int_of, Int.tdiv_eq_ediv (Rat.num_nonneg.mpr h) (by positivity),
      floor_eq_num_ediv_den]
  · rw [if_neg h, int_of]
    have hlt : q < 0 := lt_of_not_ge h
    have hnum : 0 ≤ -q.num := by
      have := Rat.num_nonneg.mpr (le_of_lt (neg_pos.mpr hlt))
      simpa [Rat.neg_num] using this
    have hceil : ⌈q⌉ = -⌊-q⌋ := by
      rw [Int.floor_neg]
      ring
    have htd : q.num.tdiv (q.den : Int) = -((-q.num).tdiv (q.den : Int)) := by
      rw [Int.neg_tdiv]
      ring
    rw [htd, Int.tdiv_eq_ediv hnum (by positivity), hceil, floor_eq_num_ediv_den]
    simp [Rat.neg_num, Rat.neg_den]

theorem create_activity_ok_duration (now oid : Nat) (body : CreateBody) (doc : ActivityDoc)
    (h : create_activity now oid body = Except.ok doc) :
    doc.duration = int_of (body.duration.getD 0) := by
  cases hd : body.date with
  | none => simp [create_activity, hd] at h
  | some d =>
      by_cases hf : falsyStr body.username || falsyStr body.exerciseType
      · simp [create_activity, hd, hf] at h
      · simp only [create_activity, hd, hf, Bool.false_eq_true, if_neg, ite_false,
          Except.ok.injEq] at h
        rw [← h]

/-- C10: the duration actually stored by create_activity is int(duration):
an admitted document stores the supplied duration truncated toward zero
(floor for non-negative values, ceiling for negative ones), and a body
with no duration field stores 0. -/
theorem created_duration_truncated (now oid : Nat) (body : CreateBody) (doc : ActivityDoc)
    (h : create_activity now oid body = Except.ok doc) :
    doc.duration = int_of (body.duration.getD 0) ∧
    (∀ q, body.duration = some q → doc.duration = if 0 ≤ q then ⌊q⌋ else ⌈q⌉) ∧
    (body.duration = none → doc.duration = 0) := by
  have hdur := create_activity_ok_duration now oid body doc h
  refine ⟨hdur, ?_, ?_⟩
  · intro q hq
    rw [hdur, hq, Option.getD_some, int_of_eq_trunc]
  · intro hn
    rw [hdur, hn]
    rfl

/-- Witness for C10: a body supplying duration 7/2 is admitted and stores
duration 3. -/
theorem created_duration_truncated_witness :
    create_activity 100 1
        { username := some "alice", exerciseType := some "Run", description := none,
          duration := some (⟨7, 2, by norm_num, by norm_num⟩ : Rat), date := some ⟨2025, 3, 10⟩ }
      = Except.ok (ActivityDoc.mk 1 "alice" "Run" "" 3 (20157 * 1440) (some 100)) ∧
    ((ActivityDoc.mk 1 "alice" "Run" "" 3 (20157 * 1440) (some 100)).duration
        = int_of ((some (⟨7, 2, by norm_num, by norm_num⟩ : Rat)).getD 0) ∧
      (∀ q, (some (⟨7, 2, by norm_num, by norm_num⟩ : Rat) : Option Rat) = some q →
        (ActivityDoc.mk 1 "alice" "Run" "" 3 (20157 * 1440) (some 100)).duration
          = if 0 ≤ q then ⌊q⌋ else ⌈q⌉) ∧
      ((some (⟨7, 2, by norm_num, by norm_num⟩ : Rat) : Option Rat) = none →
        (ActivityDoc.mk 1 "alice" "Run" "" 3 (20157 * 1440) (some 100)).duration = 0)) :=
  ⟨by rfl,
    created_duration_truncated 100 1
      { username := some "alice", exerciseType := some "Run", description := none,
        duration := some (⟨7, 2, by norm_num, by norm_num⟩ : Rat), date := some ⟨2025, 3, 10⟩ }
      (ActivityDoc.mk 1 "alice" "Run" "" 3 (20157 * 1440) (some 100)) (by rfl)⟩

/-- Counterexample to C9: create_activity performs no sign check, so a
body supplying duration -5 is admitted and the stored document carries
the negative duration -5. -/
theorem created_duration_negative_counterexample :
    create_activity 100 1
        { username := some "alice", exerciseType := some "Run", description := none,
          duration := some (-5 : Rat), date := some ⟨2025, 3, 10⟩ }
      = Except.ok (ActivityDoc.mk 1 "alice" "Run" "" (-5) (20157 * 1440) (some 100)) ∧
    (ActivityDoc.mk 1 "alice" "Run" "" (-5) (20157 * 1440) (some 100)).duration < 0 :=
  ⟨by rfl, by decide⟩

/-- C9 as the code actually guarantees it (amended): a document admitted
by create_activity has non-negative duration whenever the caller supplies
a non-negative duration or none at all; the handler itself never
validates the sign, so the unconditional invariant fails (and the
condition is sufficient, not necessary: int() also truncates negative
fractional durations above -1 to the non-negative 0). -/
theorem created_duration_nonneg_of_nonneg_input (now oid : Nat) (body : CreateBody)
    (doc : ActivityDoc) (h : create_activity now oid body = Except.ok doc)
    (hq : 0 ≤ body.duration.getD 0) :
    0 ≤ doc.duration := by
  rw [create_activity_ok_duration now oid body doc h, int_of]
  exact Int.tdiv_nonneg (Rat.num_nonneg.mpr hq) (by positivity)

/-- Witness for the amended C9: a body supplying duration 30 yields a
stored duration that is non-negative. -/
theorem created_duration_nonneg_witness :
    create_activity 100 1
        { username := some "alice", exerciseType := some "Run", description := none,
          duration := some (30 : Rat), date := some ⟨2025, 3, 10⟩ }
      = Except.ok (ActivityDoc.mk 1 "alice" "Run" "" 30 (20157 * 1440) (some 100)) ∧
    (0 : Rat) ≤ ((some (30 : Rat)).getD 0) ∧
    0 ≤ (ActivityDoc.mk 1 "alice" "Run" "" 30 (20157 * 1440) (some 100)).duration :=
  ⟨by rfl, by decide,
    created_duration_nonneg_of_nonneg_input 100 1
      { username := some "alice", exerciseType := some "Run", description := none,
        duration := some (30 : Rat), date := some ⟨2025, 3, 10⟩ }
      (ActivityDoc.mk 1 "alice" "Run" "" 30 (20157 * 1440) (some 100))
      (by rfl) (by decide)⟩
